import Mathlib

/-!
# CapstoneProject: footpath durations pipeline and Redis pair cache

A shallow embedding of three programs:

* `footpathDuration.cpp`: the all-pairs batching loop, the handling of one
  routing-service response, and the probing of the output file name;
* `redis.cpp`: the loader that stores one value per pair of stops;
* `redisQueryExample.cpp`: the point lookup of one pair.

`std::string` is a finite sequence of bytes.  The `int` counters of the
programs are natural numbers: every counter starts non-negative and only
grows, and the statements below concern runs in which no counter reaches
`2^31` (the source would be undefined there).
-/

namespace CapstoneProject

/-! ## Strings -/

/-- One `char` of a `std::string`, compared as an unsigned byte. -/
abbrev Byte := Fin 256

/-- The contents of a `std::string`. -/
abbrev Str := List Byte

/-- The bytes of an ASCII literal of the source. -/
def ascii (s : String) : Str := s.data.map (fun c => Fin.ofNat c.toNat)

/-- The comparison `std::string::operator<`: byte-wise lexicographic, a proper
prefix being smaller. -/
def strLt : Str → Str → Bool
  | [], [] => false
  | [], _ :: _ => true
  | _ :: _, [] => false
  | x :: xs, y :: ys => if x < y then true else if y < x then false else strLt xs ys

/-- The separator byte `':'` of a cache key. -/
def sep : Byte := 58

/-- The field delimiter `','` of the artifact. -/
def comma : Byte := 44

/-- The line delimiter `'\n'`. -/
def newline : Byte := 10

/-- The decimal digit `'0' + d`. -/
def digitByte (d : Nat) : Byte := Fin.ofNat (48 + d % 10)

/-- Decimal digits of `n`, most significant first, in front of `acc`; `fuel`
bounds the number of digits. -/
def toDigits : Nat → Nat → Str → Str
  | 0, _, acc => acc
  | fuel + 1, n, acc =>
    if n / 10 = 0 then digitByte n :: acc
    else toDigits fuel (n / 10) (digitByte n :: acc)

/-- The library function `std::to_string` on a non-negative `int`. -/
def to_string (n : Nat) : Str := toDigits (n + 1) n []

/-! ## `footpathDuration.cpp` -/

/-- The struct `Stop`.  Coordinates are kept as exact numbers; only the
identifier takes part in the records. -/
structure Stop where
  stop_id : Str
  latitude : ℚ
  longitude : ℚ

/-- One call `getDurationsFromSource(allStops, sourceIndex, destStart, destEnd)`
made by the nested loop of `main`. -/
structure Batch where
  sourceIndex : Nat
  destStart : Nat
  destEnd : Nat
  deriving DecidableEq, Repr

/-- The inner loop of `main` (lines 251-253), as the list of calls it makes:
`for (destStart = ...; destStart < totalStops; destStart += MAX_DESTINATIONS)`
with `destEnd = min(destStart + MAX_DESTINATIONS - 1, totalStops - 1)`.
The second argument is the fuel, the third the current `destStart`; `none`
means the fuel ran out before the loop condition became false. -/
def destLoop (totalStops maxDestinations sourceIndex : Nat) : Nat → Nat → Option (List Batch)
  | 0, _ => none
  | fuel + 1, destStart =>
    if destStart < totalStops then
      let destEnd := min (destStart + maxDestinations - 1) (totalStops - 1)
      (destLoop totalStops maxDestinations sourceIndex fuel (destStart + maxDestinations)).map
        (fun rest => ⟨sourceIndex, destStart, destEnd⟩ :: rest)
    else some []

/-- The outer loop of `main` (line 249):
`for (sourceIndex = ...; sourceIndex < totalStops; sourceIndex++)`, each
iteration running the inner loop from `sourceIndex + 1`. -/
def sourceLoop (totalStops maxDestinations innerFuel : Nat) : Nat → Nat → Option (List Batch)
  | 0, _ => none
  | fuel + 1, sourceIndex =>
    if sourceIndex < totalStops then
      match destLoop totalStops maxDestinations sourceIndex innerFuel (sourceIndex + 1) with
      | none => none
      | some bs =>
        (sourceLoop totalStops maxDestinations innerFuel fuel (sourceIndex + 1)).map
          (fun rest => bs ++ rest)
    else some []

/-- The calls made by the nested loop of `main`, in order, for `totalStops`
stops and `MAX_DESTINATIONS = maxDestinations`. -/
def planBatches (totalStops maxDestinations fuel : Nat) : Option (List Batch) :=
  sourceLoop totalStops maxDestinations fuel fuel 0

/-- The constant `MAX_DESTINATIONS` of `main`. -/
def MAX_DESTINATIONS : Nat := 99

/-- One cell of row 0 of the `durations` matrix: JSON `null`, a JSON number,
or any other JSON value (on which `get<double>()` throws). -/
inductive Cell where
  | null
  | number (v : ℚ)
  | other
  deriving DecidableEq

/-- What `getDurationsFromSource` receives for its request. -/
inductive Response where
  /-- No curl handle, or `res != CURLE_OK`. -/
  | transportFailure
  /-- The call `json::parse` throws. -/
  | parseError
  /-- The parsed value has no member `durations`. -/
  | noDurations
  /-- The member `durations` holds these rows. -/
  | durations (rows : List (List Cell))

/-- The loop `for (const auto &dist : response["durations"][0])` with
`durations.push_back(dist.is_null() ? -1.0 : dist.get<double>())`; `none` when
`get<double>()` throws. -/
def rowDurations : List Cell → Option (List ℚ)
  | [] => some []
  | Cell.null :: cs => (rowDurations cs).map (fun ds => (-1) :: ds)
  | Cell.number v :: cs => (rowDurations cs).map (fun ds => v :: ds)
  | Cell.other :: _ => none

/-- The response handling of `getDurationsFromSource` (lines 186-204); the
construction of the request URL is not part of the model.  Every failure,
an exception caught by the `catch` included, ends in the empty vector. -/
def getDurationsFromSource (response : Response) : List ℚ :=
  match response with
  | Response.durations (row0 :: _) =>
    match rowDurations row0 with
    | some ds => ds
    | none => []
  | _ => []

/-- One line written to `outFile` after the header.  The third field is the
number handed to the stream, not its decimal rendering. -/
structure Record where
  stop_id1 : Str
  stop_id2 : Str
  duration : ℚ
  deriving DecidableEq

/-- The lines of `outFile` after the header and the three counters of `main`. -/
structure RunState where
  outFile : List Record
  totalRequests : Nat
  failedRequests : Nat
  totalStopPairs : Nat

/-- The loop `for (int i = 0; i < durations.size(); i++)` of `main` (lines
260-274); the third argument is the rest of `durations` from index `i` on.
`none` stands for an out-of-range `allStops[...]`. -/
def writeDurations (allStops : List Stop) (sourceIndex destStart : Nat) :
    List ℚ → Nat → RunState → Option RunState
  | [], _, st => some st
  | d :: ds, i, st =>
    match allStops[sourceIndex]?, allStops[destStart + i]? with
    | some src, some dst =>
      let line : Record :=
        if 0 ≤ d then ⟨src.stop_id, dst.stop_id, d⟩ else ⟨src.stop_id, dst.stop_id, -1⟩
      writeDurations allStops sourceIndex destStart ds (i + 1)
        { st with outFile := st.outFile ++ [line], totalStopPairs := st.totalStopPairs + 1 }
    | _, _ => none

/-- The body of the inner loop of `main` (lines 255-281) for one batch and the
response to its request. -/
def processBatch (allStops : List Stop) (b : Batch) (response : Response) (st : RunState) :
    Option RunState :=
  let durations := getDurationsFromSource response
  if durations ≠ [] then
    (writeDurations allStops b.sourceIndex b.destStart durations 0 st).map
      (fun st1 => { st1 with totalRequests := st1.totalRequests + 1 })
  else some { st with failedRequests := st.failedRequests + 1 }

/-- The state of `main` before the loop. -/
def initialRun : RunState := ⟨[], 0, 0, 0⟩

/-- The nested loop of `main` (lines 249-283): the body runs once per planned
batch, in order; `respond` is the routing service. -/
def runPipeline (allStops : List Stop) (respond : Batch → Response) (fuel : Nat) :
    Option RunState :=
  match planBatches allStops.length MAX_DESTINATIONS fuel with
  | none => none
  | some bs => bs.foldlM (fun st b => processBatch allStops b (respond b) st) initialRun

/-- The string `baseFilename` of `main`. -/
def baseFilename : Str := ascii "foot_durations"

/-- The string `extension` of `main`. -/
def extension : Str := ascii ".csv"

/-- The loop `while (std::ifstream(filename))` of `main` (lines 233-236);
`fileExists` tells whether a name can be opened, the arguments are the fuel,
`filename` and `counter`. -/
def probeLoop (fileExists : Str → Bool) : Nat → Str → Nat → Option Str
  | 0, _, _ => none
  | fuel + 1, filename, counter =>
    if fileExists filename then
      probeLoop fileExists fuel (baseFilename ++ ascii "_" ++ to_string counter ++ extension)
        (counter + 1)
    else some filename

/-- The output name chosen by `main` (lines 226-236) when the existing names
are those of `E`. -/
def chooseFilename (E : Finset Str) (fuel : Nat) : Option Str :=
  probeLoop (fun f => decide (f ∈ E)) fuel (baseFilename ++ extension) 2

/-- The sequence of names of the specification: `foot_durations.csv`,
`foot_durations_2.csv`, `foot_durations_3.csv`, ... -/
def candidateName : Nat → Str
  | 0 => ascii "foot_durations.csv"
  | k + 1 => ascii "foot_durations_" ++ to_string (k + 2) ++ ascii ".csv"

/-! ## The key-value store -/

/-- The store behind `SET` and `GET`: a map from key to value. -/
abbrev Store := Str → Option Str

/-- The command `SET key value`: overwrite. -/
def SET (store : Store) (key value : Str) : Store :=
  fun k => if k = key then some value else store k

/-- The command `GET key`: read. -/
def GET (store : Store) (key : Str) : Option Str := store key

/-- The input stream of `std::getline`: `none` once the end of the input was
hit, else the bytes still to read. -/
abbrev Stream := Option Str

/-- The library function `std::getline(ss, field, delim)`: the field, and the
stream after it; `none` when the call fails (nothing left to read). -/
def getline (delim : Byte) : Stream → Option (Str × Stream)
  | none => none
  | some rest =>
    match rest.span (fun c => c != delim) with
    | (field, _ :: after) => some (field, some after)
    | (field, []) => if field = [] then none else some (field, none)

/-! ## `redis.cpp` -/

namespace Redis

/-- The function `makeKey` of `redis.cpp`. -/
def makeKey (stop_id1 stop_id2 : Str) : Str :=
  if strLt stop_id1 stop_id2 then stop_id1 ++ [sep] ++ stop_id2
  else stop_id2 ++ [sep] ++ stop_id1

/-- The store and the counter `count` of `main`. -/
structure LoaderState where
  store : Store
  count : Nat

/-- Lines 64-84 of `main`: what the loader does with the three fields of a
line. -/
def storeRecord (st : LoaderState) (stop_id1 stop_id2 distance : Str) : LoaderState :=
  if stop_id1 = [] ∨ stop_id2 = [] ∨ distance = [] then st
  else { store := SET st.store (makeKey stop_id1 stop_id2) distance, count := st.count + 1 }

/-- The body of the `while (std::getline(file, line))` loop of `main` (lines
57-90). -/
def processLine (st : LoaderState) (line : Str) : LoaderState :=
  if line = [] then st
  else
    match getline comma (some line) with
    | none => st
    | some (stop_id1, s1) =>
      match getline comma s1 with
      | none => st
      | some (stop_id2, s2) =>
        match getline newline s2 with
        | none => st
        | some (distance, _) => storeRecord st stop_id1 stop_id2 distance

/-- The loop of `main` over the lines that follow the header. -/
def loadLines (st : LoaderState) (lines : List Str) : LoaderState :=
  lines.foldl processLine st

/-- The loader applied to the fields of a sequence of records, in order. -/
def loadRecords (st : LoaderState) (records : List (Str × Str × Str)) : LoaderState :=
  records.foldl (fun s r => storeRecord s r.1 r.2.1 r.2.2) st

end Redis

/-! ## `redisQueryExample.cpp` -/

namespace RedisQueryExample

/-- The function `makeKey` of `redisQueryExample.cpp`. -/
def makeKey (stop_id1 stop_id2 : Str) : Str :=
  if strLt stop_id1 stop_id2 then stop_id1 ++ [sep] ++ stop_id2
  else stop_id2 ++ [sep] ++ stop_id1

/-- Lines 34-49 of `main` for two identifiers: the string of the reply, or
`none` when no duration is found. -/
def lookup (store : Store) (stop_id1 stop_id2 : Str) : Option Str :=
  GET store (makeKey stop_id1 stop_id2)

end RedisQueryExample

/-- The text of one record of the artifact: `a,b,d`. -/
def recordLine (a b d : Str) : Str := a ++ [comma] ++ b ++ [comma] ++ d

/-! ## Values and inputs of the scenarios -/

/-- The value recorded for a cell of the specification: `-1` for `null`, the
number otherwise. -/
def cellValue : Cell → ℚ
  | Cell.null => -1
  | Cell.number v => v
  | Cell.other => 0

/-- The stops `A(0,0)`, `B(0,1)`, `C(1,0)` of the scenarios. -/
def exampleStops : List Stop := [⟨ascii "A", 0, 0⟩, ⟨ascii "B", 0, 1⟩, ⟨ascii "C", 1, 0⟩]

/-! ## Loop graphs, used in the proofs -/

/-- The lists the inner loop can return when started at `destStart = d`: the
graph of `destLoop`, without the fuel. -/
inductive Tiling (totalStops maxDestinations sourceIndex : Nat) : Nat → List Batch → Prop
  | done {d : Nat} : ¬ d < totalStops → Tiling totalStops maxDestinations sourceIndex d []
  | step {d : Nat} {rest : List Batch} : d < totalStops →
      Tiling totalStops maxDestinations sourceIndex (d + maxDestinations) rest →
      Tiling totalStops maxDestinations sourceIndex d
        (⟨sourceIndex, d, min (d + maxDestinations - 1) (totalStops - 1)⟩ :: rest)

/-- The lists the outer loop can return when started at `sourceIndex = s`: the
graph of `sourceLoop`, without the fuel. -/
inductive Planned (totalStops maxDestinations : Nat) : Nat → List Batch → Prop
  | done {s : Nat} : ¬ s < totalStops → Planned totalStops maxDestinations s []
  | step {s : Nat} {bs rest : List Batch} : s < totalStops →
      Tiling totalStops maxDestinations s (s + 1) bs →
      Planned totalStops maxDestinations (s + 1) rest →
      Planned totalStops maxDestinations s (bs ++ rest)

/-! ## Facts about string comparison -/

theorem strLt_irrefl (a : Str) : strLt a a = false := by
  induction a with
  | nil => rfl
  | cons x xs ih => simp [strLt, ih]

theorem strLt_asymm : ∀ (a b : Str), strLt a b = true → strLt b a = false
  | [], [], h => by simp [strLt] at h
  | [], _ :: _, _ => by simp [strLt]
  | _ :: _, [], h => by simp [strLt] at h
  | x :: xs, y :: ys, h => by
    simp only [strLt] at h ⊢
    by_cases hxy : x < y
    · have hyx : ¬ y < x := not_lt.mpr (le_of_lt hxy)
      simp [hyx, hxy]
    · by_cases hyx : y < x
      · simp [hxy, hyx] at h
      · simp only [hxy, hyx, if_false] at h ⊢
        exact strLt_asymm xs ys h

theorem strLt_total : ∀ (a b : Str), strLt a b = false → strLt b a = false → a = b
  | [], [], _, _ => rfl
  | [], _ :: _, h, _ => by simp [strLt] at h
  | _ :: _, [], _, h => by simp [strLt] at h
  | x :: xs, y :: ys, h1, h2 => by
    simp only [strLt] at h1 h2
    by_cases hxy : x < y
    · simp [hxy] at h1
    · by_cases hyx : y < x
      · simp [hyx] at h2
      · simp only [hxy, hyx, if_false] at h1 h2
        have hx : x = y := le_antisymm (not_lt.mp hyx) (not_lt.mp hxy)
        rw [hx, strLt_total xs ys h1 h2]

theorem strLt_append_cons (a : Str) (x : Byte) (t : Str) : strLt a (a ++ x :: t) = true := by
  induction a with
  | nil => rfl
  | cons y ys ih => simp [strLt, ih]

/-- Both orders of the arguments give the same key. -/
theorem makeKey_swap (a b : Str) : Redis.makeKey a b = Redis.makeKey b a := by
  unfold Redis.makeKey
  cases hab : strLt a b with
  | true => simp [strLt_asymm a b hab]
  | false =>
    cases hba : strLt b a with
    | true => simp
    | false => simp [strLt_total a b hab hba]

/-- The two programs build their keys by the same function. -/
theorem makeKey_query_eq (a b : Str) : RedisQueryExample.makeKey a b = Redis.makeKey a b := rfl

/-- Two separator-joined strings with separator-free left parts are equal only
componentwise. -/
theorem join_inj : ∀ (x z y w : Str), sep ∉ x → sep ∉ z →
    x ++ [sep] ++ y = z ++ [sep] ++ w → x = z ∧ y = w
  | [], [], y, w, _, _, h => by simpa using h
  | [], c :: z, y, w, _, hz, h => by
    simp only [List.nil_append, List.cons_append, List.singleton_append, List.cons.injEq] at h
    exact absurd (h.1 ▸ List.mem_cons_self _ _) hz
  | c :: x, [], y, w, hx, _, h => by
    simp only [List.nil_append, List.cons_append, List.singleton_append, List.cons.injEq] at h
    exact absurd (h.1 ▸ List.mem_cons_self _ _) hx
  | c :: x, e :: z, y, w, hx, hz, h => by
    simp only [List.cons_append, List.cons.injEq] at h
    have := join_inj x z y w (fun hm => hx (List.mem_cons_of_mem _ hm))
      (fun hm => hz (List.mem_cons_of_mem _ hm)) (by simpa using h.2)
    exact ⟨by rw [h.1, this.1], this.2⟩

/-- A key built in one order equals a key built in the other order only when
the pairs agree, provided the shared identifier holds no separator. -/
theorem cross_join (a b c : Str) (ha : sep ∉ a) (h : a ++ [sep] ++ b = c ++ [sep] ++ a)
    (hc : strLt a c = false) : c = a ∧ b = a := by
  rw [List.append_assoc, List.append_assoc] at h
  rcases List.append_eq_append_iff.mp h with ⟨t, hc1, hb1⟩ | ⟨t, ha1, hb1⟩
  · cases t with
    | nil =>
      simp only [List.append_nil, List.nil_append] at hc1 hb1
      exact ⟨hc1, by simpa using hb1⟩
    | cons x t =>
      rw [hc1, strLt_append_cons] at hc
      exact absurd hc (by simp)
  · cases t with
    | nil =>
      simp only [List.append_nil, List.nil_append] at ha1 hb1
      exact ⟨ha1.symm, by simpa using hb1.symm⟩
    | cons x t =>
      simp only [List.singleton_append, List.cons_append, List.cons.injEq] at hb1
      exact absurd (by rw [ha1, ← hb1.1]; simp) ha

/-- Keys that share a separator-free identifier differ when the other
identifiers differ. -/
theorem makeKey_left_inj (a b c : Str) (ha : sep ∉ a) (h : Redis.makeKey a b = Redis.makeKey a c) :
    b = c := by
  unfold Redis.makeKey at h
  cases hab : strLt a b with
  | true =>
    cases hac : strLt a c with
    | true =>
      simp only [hab, hac, if_true] at h
      exact List.append_cancel_left h
    | false =>
      simp only [hab, hac, if_true, Bool.false_eq_true, if_false] at h
      obtain ⟨_, hb⟩ := cross_join a b c ha h hac
      rw [hb, strLt_irrefl] at hab
      exact absurd hab (by simp)
  | false =>
    cases hac : strLt a c with
    | true =>
      simp only [hab, hac, if_true, Bool.false_eq_true, if_false] at h
      obtain ⟨_, hc⟩ := cross_join a c b ha h.symm hab
      rw [hc, strLt_irrefl] at hac
      exact absurd hac (by simp)
    | false =>
      simp only [hab, hac, Bool.false_eq_true, if_false] at h
      exact List.append_cancel_right (List.append_cancel_right h)

/-- Separator-free identifiers give equal keys exactly for equal unordered
pairs. -/
theorem makeKey_eq_iff (a b c d : Str) (ha : sep ∉ a) (hb : sep ∉ b) (hc : sep ∉ c)
    (hd : sep ∉ d) :
    Redis.makeKey a b = Redis.makeKey c d ↔ (a = c ∧ b = d) ∨ (a = d ∧ b = c) := by
  constructor
  · intro h
    unfold Redis.makeKey at h
    cases hab : strLt a b <;> cases hcd : strLt c d <;>
      simp only [hab, hcd, if_true, Bool.false_eq_true, if_false] at h
    · obtain ⟨h1, h2⟩ := join_inj b d a c hb hd h
      exact Or.inl ⟨h2, h1⟩
    · obtain ⟨h1, h2⟩ := join_inj b c a d hb hc h
      exact Or.inr ⟨h2, h1⟩
    · obtain ⟨h1, h2⟩ := join_inj a d b c ha hd h
      exact Or.inr ⟨h1, h2⟩
    · obtain ⟨h1, h2⟩ := join_inj a c b d ha hc h
      exact Or.inl ⟨h1, h2⟩
  · rintro (⟨h1, h2⟩ | ⟨h1, h2⟩)
    · rw [h1, h2]
    · rw [h1, h2, makeKey_swap]

/-! ## Facts about the loader -/

theorem getline_field (delim : Byte) (f rest : Str) (hf : delim ∉ f) :
    getline delim (some (f ++ delim :: rest)) = some (f, some rest) := by
  have h1 : ∀ c ∈ f, (c != delim) = true := by
    intro c hc
    simp only [bne_iff_ne, ne_eq]
    rintro rfl
    exact hf hc
  simp [getline, List.span_eq_take_drop, List.takeWhile_append_of_pos h1,
    List.dropWhile_append_of_pos h1, List.takeWhile_cons, List.dropWhile_cons]

theorem getline_last (delim : Byte) (f : Str) (hf : delim ∉ f) (hne : f ≠ []) :
    getline delim (some f) = some (f, none) := by
  have h1 : ∀ c ∈ f, (c != delim) = true := by
    intro c hc
    simp only [bne_iff_ne, ne_eq]
    rintro rfl
    exact hf hc
  have h2 : f.takeWhile (fun c => c != delim) = f := List.takeWhile_eq_self_iff.mpr h1
  have h3 : f.dropWhile (fun c => c != delim) = [] := List.dropWhile_eq_nil_iff.mpr h1
  simp [getline, List.span_eq_take_drop, h2, h3, hne]

/-- The line `a,b,d` is read back as the fields `a`, `b`, `d`. -/
theorem processLine_recordLine (st : Redis.LoaderState) (a b d : Str) (ha : comma ∉ a)
    (hb : comma ∉ b) (hd : newline ∉ d) (hne : d ≠ []) :
    Redis.processLine st (recordLine a b d) = Redis.storeRecord st a b d := by
  have hl : recordLine a b d = a ++ comma :: (b ++ comma :: d) := by simp [recordLine]
  have hnil : recordLine a b d ≠ [] := by simp [hl]
  unfold Redis.processLine
  rw [if_neg hnil, hl, getline_field comma a _ ha]
  simp only [getline_field comma b d hb, getline_last newline d hd hne]

theorem loadRecords_append (st : Redis.LoaderState) (xs ys : List (Str × Str × Str)) :
    Redis.loadRecords st (xs ++ ys) = Redis.loadRecords (Redis.loadRecords st xs) ys := by
  simp [Redis.loadRecords, List.foldl_append]

theorem storeRecord_same (st : Redis.LoaderState) (a b d : Str) (ha : a ≠ []) (hb : b ≠ [])
    (hd : d ≠ []) : (Redis.storeRecord st a b d).store (Redis.makeKey a b) = some d := by
  simp [Redis.storeRecord, ha, hb, hd, SET]

theorem storeRecord_other (st : Redis.LoaderState) (a b d k : Str) (hk : Redis.makeKey a b ≠ k) :
    (Redis.storeRecord st a b d).store k = st.store k := by
  unfold Redis.storeRecord
  split
  · rfl
  · simp [SET, Ne.symm hk]

/-- Records with other keys leave the entry of a key alone. -/
theorem loadRecords_other (k : Str) : ∀ (recs : List (Str × Str × Str)) (st : Redis.LoaderState),
    (∀ r ∈ recs, Redis.makeKey r.1 r.2.1 ≠ k) → (Redis.loadRecords st recs).store k = st.store k
  | [], _, _ => rfl
  | r :: recs, st, h => by
    have h1 := loadRecords_other k recs (Redis.storeRecord st r.1 r.2.1 r.2.2)
      (fun q hq => h q (List.mem_cons_of_mem _ hq))
    have h2 := storeRecord_other st r.1 r.2.1 r.2.2 k (h r (List.mem_cons_self _ _))
    simpa [Redis.loadRecords] using h1.trans h2

/-! ## Facts about the output name -/

/-- Reading a digit string back as a number. -/
theorem toDigits_value : ∀ (fuel n : Nat) (acc : Str), n < fuel →
    (toDigits fuel n acc).foldl (fun v c => 10 * v + (c.val - 48)) 0
      = acc.foldl (fun v c => 10 * v + (c.val - 48)) n
  | 0, _, _, h => absurd h (Nat.not_lt_zero _)
  | fuel + 1, n, acc, h => by
    have hd : (digitByte n).val - 48 = n % 10 := by
      have h10 : n % 10 < 10 := Nat.mod_lt _ (by decide)
      have : (48 + n % 10) % 256 = 48 + n % 10 := Nat.mod_eq_of_lt (by omega)
      simp [digitByte, Fin.ofNat, this]
    unfold toDigits
    by_cases h0 : n / 10 = 0
    · have hn : n % 10 = n := by omega
      simp [h0, hd, hn]
    · have hlt : n / 10 < fuel := by omega
      have hn : 10 * (n / 10) + n % 10 = n := Nat.div_add_mod n 10
      simp [h0, toDigits_value fuel (n / 10) (digitByte n :: acc) hlt, hd, hn]

theorem to_string_injective : Function.Injective to_string := by
  intro m n h
  have hm := toDigits_value (m + 1) m [] (Nat.lt_succ_self m)
  have hn := toDigits_value (n + 1) n [] (Nat.lt_succ_self n)
  simp only [List.foldl_nil] at hm hn
  unfold to_string at h
  rw [← hm, ← hn, h]

theorem candidateName_injective : Function.Injective candidateName := by
  have h0 : ∀ k, candidateName 0 ≠ candidateName (k + 1) := by
    intro k h
    have h1 : candidateName 0 = ascii "foot_durations" ++ (46 :: ascii "csv") := by decide
    have h2 : candidateName (k + 1)
        = ascii "foot_durations" ++ (95 :: (to_string (k + 2) ++ ascii ".csv")) := by
      have : ascii "foot_durations_" = ascii "foot_durations" ++ [95] := by decide
      simp [candidateName, this]
    rw [h1, h2] at h
    have h3 := List.append_cancel_left h
    simp only [List.cons.injEq] at h3
    exact absurd h3.1 (by decide)
  intro m n h
  cases m with
  | zero =>
    cases n with
    | zero => rfl
    | succ n => exact absurd h (h0 n)
  | succ m =>
    cases n with
    | zero => exact absurd h.symm (h0 m)
    | succ n =>
      simp only [candidateName] at h
      have h1 := List.append_cancel_left (List.append_cancel_right h)
      have h2 := to_string_injective h1
      omega

/-- One of the first `E.card + 1` names is free. -/
theorem exists_free_name (E : Finset Str) : ∃ k, candidateName k ∉ E := by
  by_contra hall
  simp only [not_exists, not_not] at hall
  have h := Finset.card_le_card_of_injOn candidateName
    (fun k (_ : k ∈ Finset.range (E.card + 1)) => hall k)
    (fun a _ b _ hab => candidateName_injective hab)
  simp at h

/-- The loop started at the name number `m` stops at the first free name. -/
theorem probeLoop_finds (E : Finset Str) (k : Nat) (hk : candidateName k ∉ E)
    (hbelow : ∀ j, j < k → candidateName j ∈ E) :
    ∀ (n m fuel : Nat), m + n = k → n < fuel →
      probeLoop (fun f => decide (f ∈ E)) fuel (candidateName m) (m + 2)
        = some (candidateName k)
  | _, _, 0, _, h => absurd h (Nat.not_lt_zero _)
  | 0, m, fuel + 1, hm, _ => by
    have : m = k := by omega
    subst this
    simp [probeLoop, hk]
  | n + 1, m, fuel + 1, hm, hf => by
    have hin : candidateName m ∈ E := hbelow m (by omega)
    have hnext : baseFilename ++ ascii "_" ++ to_string (m + 2) ++ extension
        = candidateName (m + 1) := by
      have : baseFilename ++ ascii "_" = ascii "foot_durations_" := by decide
      rw [this]
      rfl
    have ih := probeLoop_finds E k hk hbelow n (m + 1) fuel (by omega) (by omega)
    simp only [probeLoop, hin, decide_True, if_true, hnext]
    exact ih

/-! ## Facts about the batching loops -/

theorem destLoop_tiling (totalStops maxDestinations sourceIndex : Nat)
    (hmax : 1 ≤ maxDestinations) : ∀ (n d : Nat), totalStops - d ≤ n →
    ∃ bs, Tiling totalStops maxDestinations sourceIndex d bs ∧
      ∀ fuel, n < fuel → destLoop totalStops maxDestinations sourceIndex fuel d = some bs := by
  intro n
  induction n with
  | zero =>
    intro d hd
    refine ⟨[], Tiling.done (by omega), fun fuel hf => ?_⟩
    obtain ⟨f, rfl⟩ : ∃ f, fuel = f + 1 := ⟨fuel - 1, by omega⟩
    have : ¬ d < totalStops := by omega
    simp [destLoop, this]
  | succ n ih =>
    intro d hd
    by_cases hlt : d < totalStops
    · obtain ⟨rest, hrest, hrun⟩ := ih (d + maxDestinations) (by omega)
      refine ⟨_, Tiling.step hlt hrest, fun fuel hf => ?_⟩
      obtain ⟨f, rfl⟩ : ∃ f, fuel = f + 1 := ⟨fuel - 1, by omega⟩
      simp [destLoop, hlt, hrun f (by omega)]
    · refine ⟨[], Tiling.done hlt, fun fuel hf => ?_⟩
      obtain ⟨f, rfl⟩ : ∃ f, fuel = f + 1 := ⟨fuel - 1, by omega⟩
      simp [destLoop, hlt]

theorem sourceLoop_planned (totalStops maxDestinations : Nat) (hmax : 1 ≤ maxDestinations) :
    ∀ (n s : Nat), totalStops - s ≤ n →
    ∃ bs, Planned totalStops maxDestinations s bs ∧
      ∀ innerFuel fuel, totalStops ≤ innerFuel → n < fuel →
        sourceLoop totalStops maxDestinations innerFuel fuel s = some bs := by
  intro n
  induction n with
  | zero =>
    intro s hs
    refine ⟨[], Planned.done (by omega), fun innerFuel fuel _ hf => ?_⟩
    obtain ⟨f, rfl⟩ : ∃ f, fuel = f + 1 := ⟨fuel - 1, by omega⟩
    have : ¬ s < totalStops := by omega
    simp [sourceLoop, this]
  | succ n ih =>
    intro s hs
    by_cases hlt : s < totalStops
    · obtain ⟨bs, hbs, hinner⟩ :=
        destLoop_tiling totalStops maxDestinations s hmax (totalStops - (s + 1)) (s + 1)
          (le_refl _)
      obtain ⟨rest, hrest, hrun⟩ := ih (s + 1) (by omega)
      refine ⟨bs ++ rest, Planned.step hlt hbs hrest, fun innerFuel fuel hi hf => ?_⟩
      obtain ⟨f, rfl⟩ : ∃ f, fuel = f + 1 := ⟨fuel - 1, by omega⟩
      simp [sourceLoop, hlt, hinner innerFuel (by omega), hrun innerFuel f hi (by omega)]
    · refine ⟨[], Planned.done hlt, fun innerFuel fuel _ hf => ?_⟩
      obtain ⟨f, rfl⟩ : ∃ f, fuel = f + 1 := ⟨fuel - 1, by omega⟩
      simp [sourceLoop, hlt]

theorem tiling_mem {totalStops maxDestinations sourceIndex : Nat} (hmax : 1 ≤ maxDestinations)
    {d : Nat} {bs : List Batch} (h : Tiling totalStops maxDestinations sourceIndex d bs) :
    ∀ b ∈ bs, b.sourceIndex = sourceIndex ∧ d ≤ b.destStart ∧ b.destStart ≤ b.destEnd ∧
      b.destEnd < totalStops ∧ b.destEnd - b.destStart + 1 ≤ maxDestinations := by
  induction h with
  | done _ => intro b hb; simp at hb
  | step hlt _ ih =>
    intro b hb
    rcases List.mem_cons.mp hb with rfl | hb
    · dsimp only
      refine ⟨rfl, le_refl _, ?_, ?_, ?_⟩ <;> omega
    · obtain ⟨h1, h2, h3⟩ := ih b hb
      exact ⟨h1, by omega, h3⟩

theorem tiling_count {totalStops maxDestinations sourceIndex : Nat} (hmax : 1 ≤ maxDestinations)
    {d : Nat} {bs : List Batch} (h : Tiling totalStops maxDestinations sourceIndex d bs)
    (i j : Nat) :
    bs.countP (fun b => b.sourceIndex = i ∧ b.destStart ≤ j ∧ j ≤ b.destEnd)
      = if i = sourceIndex ∧ d ≤ j ∧ j < totalStops then 1 else 0 := by
  induction h with
  | @done d0 hge =>
    have : ¬ (i = sourceIndex ∧ d0 ≤ j ∧ j < totalStops) := by omega
    simp [this]
  | step hlt _ ih =>
    rw [List.countP_cons, ih]
    simp only [decide_eq_true_eq]
    split_ifs <;> omega

theorem tiling_nonempty {totalStops maxDestinations sourceIndex d : Nat} {bs : List Batch}
    (h : Tiling totalStops maxDestinations sourceIndex d bs) : bs ≠ [] ↔ d < totalStops := by
  cases h with
  | done hge => simp [hge]
  | step hlt _ => simp [hlt]

theorem tiling_chain {totalStops maxDestinations sourceIndex : Nat} (hmax : 1 ≤ maxDestinations)
    {d : Nat} {bs : List Batch} (h : Tiling totalStops maxDestinations sourceIndex d bs) :
    (∀ b ∈ bs.head?, b.destStart = d) ∧
    List.Chain' (fun b c : Batch => c.destStart = b.destEnd + 1 ∧
      b.destEnd - b.destStart + 1 = maxDestinations) bs ∧
    (∀ b ∈ bs.getLast?, b.destEnd = totalStops - 1) := by
  induction h with
  | done _ => simp
  | @step d0 rest hlt hrest ih =>
    obtain ⟨ih1, ih2, ih3⟩ := ih
    refine ⟨by simp, ?_, ?_⟩
    · rw [List.chain'_cons']
      refine ⟨fun c hc => ?_, ih2⟩
      have hne : rest ≠ [] := by
        intro h0
        simp [h0] at hc
      have h1 := (tiling_nonempty hrest).mp hne
      have h2 := ih1 c hc
      dsimp only
      omega
    · intro b hb
      cases rest with
      | nil =>
        have h1 : ¬ d0 + maxDestinations < totalStops := by
          intro hlt2
          exact absurd rfl ((tiling_nonempty hrest).mpr hlt2)
        simp only [List.getLast?_singleton, Option.mem_def, Option.some.injEq] at hb
        subst hb
        dsimp only
        omega
      | cons c cs =>
        rw [List.getLast?_cons_cons] at hb
        exact ih3 b hb

theorem planned_filter {totalStops maxDestinations : Nat} (hmax : 1 ≤ maxDestinations)
    {s : Nat} {bs : List Batch} (h : Planned totalStops maxDestinations s bs) (t : Nat) :
    (s ≤ t ∧ t < totalStops →
      Tiling totalStops maxDestinations t (t + 1) (bs.filter (fun b => b.sourceIndex = t))) ∧
    (¬ (s ≤ t ∧ t < totalStops) → bs.filter (fun b => b.sourceIndex = t) = []) := by
  induction h with
  | done hge =>
    refine ⟨fun ht => ?_, fun _ => by simp⟩
    omega
  | @step s0 bs0 rest hlt hbs _ ih =>
    obtain ⟨ih1, ih2⟩ := ih
    have hsrc := tiling_mem hmax hbs
    rw [List.filter_append]
    by_cases hts : t = s0
    · subst hts
      have h1 : bs0.filter (fun b => b.sourceIndex = t) = bs0 := by
        apply List.filter_eq_self.mpr
        intro b hb
        simp [(hsrc b hb).1]
      have h2 := ih2 (by omega)
      rw [h1, h2, List.append_nil]
      exact ⟨fun _ => hbs, fun hn => absurd ⟨le_refl _, hlt⟩ hn⟩
    · have h1 : bs0.filter (fun b => b.sourceIndex = t) = [] := by
        apply List.filter_eq_nil_iff.mpr
        intro b hb
        simp only [decide_eq_true_eq, (hsrc b hb).1]
        omega
      rw [h1, List.nil_append]
      exact ⟨fun ht => ih1 (by omega), fun hn => ih2 (by omega)⟩

theorem planned_mem {totalStops maxDestinations : Nat} (hmax : 1 ≤ maxDestinations)
    {s : Nat} {bs : List Batch} (h : Planned totalStops maxDestinations s bs) :
    ∀ b ∈ bs, b.sourceIndex < b.destStart ∧ b.destStart ≤ b.destEnd ∧
      b.destEnd < totalStops ∧ b.destEnd - b.destStart + 1 ≤ maxDestinations := by
  induction h with
  | done _ => intro b hb; simp at hb
  | step _ hbs _ ih =>
    intro b hb
    rcases List.mem_append.mp hb with hb | hb
    · obtain ⟨h1, h2, h3⟩ := tiling_mem hmax hbs b hb
      exact ⟨by omega, h3⟩
    · exact ih b hb

theorem planned_count {totalStops maxDestinations : Nat} (hmax : 1 ≤ maxDestinations)
    {s : Nat} {bs : List Batch} (h : Planned totalStops maxDestinations s bs) (i j : Nat) :
    bs.countP (fun b => b.sourceIndex = i ∧ b.destStart ≤ j ∧ j ≤ b.destEnd)
      = if s ≤ i ∧ i < j ∧ j < totalStops then 1 else 0 := by
  induction h with
  | @done s0 hge =>
    have : ¬ (s0 ≤ i ∧ i < j ∧ j < totalStops) := by omega
    simp [this]
  | step hlt hbs _ ih =>
    rw [List.countP_append, ih, tiling_count hmax hbs]
    split_ifs <;> omega

theorem planBatches_planned (totalStops maxDestinations : Nat) (hmax : 1 ≤ maxDestinations) :
    ∃ bs, Planned totalStops maxDestinations 0 bs ∧
      ∀ fuel, totalStops < fuel → planBatches totalStops maxDestinations fuel = some bs := by
  obtain ⟨bs, hbs, hrun⟩ := sourceLoop_planned totalStops maxDestinations hmax totalStops 0
    (by omega)
  exact ⟨bs, hbs, fun fuel hf => hrun fuel fuel (by omega) hf⟩

/-! ## Facts about the handling of a response -/

theorem rowDurations_map : ∀ (row : List Cell), (∀ c ∈ row, c ≠ Cell.other) →
    rowDurations row = some (row.map cellValue)
  | [], _ => rfl
  | Cell.null :: cs, h => by
    simp [rowDurations, cellValue,
      rowDurations_map cs (fun c hc => h c (List.mem_cons_of_mem _ hc))]
  | Cell.number v :: cs, h => by
    simp [rowDurations, cellValue,
      rowDurations_map cs (fun c hc => h c (List.mem_cons_of_mem _ hc))]
  | Cell.other :: cs, h => absurd rfl (h Cell.other (List.mem_cons_self _ _))

theorem writeDurations_eq (allStops : List Stop) (sourceIndex destStart : Nat) (src : Stop)
    (hsrc : allStops[sourceIndex]? = some src) :
    ∀ (ds : List ℚ) (i : Nat) (st : RunState), destStart + i + ds.length ≤ allStops.length →
      writeDurations allStops sourceIndex destStart ds i st
        = some ⟨st.outFile ++ List.zipWith
            (fun dst d => (⟨src.stop_id, dst.stop_id, if 0 ≤ d then d else -1⟩ : Record))
            (allStops.drop (destStart + i)) ds,
          st.totalRequests, st.failedRequests, st.totalStopPairs + ds.length⟩
  | [], i, st, _ => by simp [writeDurations]
  | d :: ds, i, st, h => by
    have hi : destStart + i < allStops.length := by
      simp only [List.length_cons] at h
      omega
    have hdst : allStops[destStart + i]? = some allStops[destStart + i] :=
      List.getElem?_eq_getElem hi
    have hdrop : allStops.drop (destStart + i)
        = allStops[destStart + i] :: allStops.drop (destStart + (i + 1)) := by
      rw [← Nat.add_assoc]
      exact List.drop_eq_getElem_cons hi
    have ih := writeDurations_eq allStops sourceIndex destStart src hsrc ds (i + 1)
      ⟨st.outFile ++
          [if 0 ≤ d then ⟨src.stop_id, allStops[destStart + i].stop_id, d⟩
            else ⟨src.stop_id, allStops[destStart + i].stop_id, -1⟩],
        st.totalRequests, st.failedRequests, st.totalStopPairs + 1⟩
      (by simp only [List.length_cons] at h; omega)
    simp only [writeDurations, hsrc, hdst, ih, hdrop, List.zipWith_cons_cons,
      List.length_cons, List.append_assoc, List.singleton_append]
    split_ifs <;> simp [Nat.add_assoc, Nat.add_comm 1]

theorem processBatch_row (allStops : List Stop) (b : Batch) (row0 : List Cell)
    (rest : List (List Cell)) (st : RunState) (src : Stop)
    (hsrc : allStops[b.sourceIndex]? = some src) (hne : row0 ≠ [])
    (hcells : ∀ c ∈ row0, c ≠ Cell.other)
    (hin : b.destStart + row0.length ≤ allStops.length) :
    processBatch allStops b (Response.durations (row0 :: rest)) st
      = some ⟨st.outFile ++ List.zipWith
          (fun dst c => (⟨src.stop_id, dst.stop_id,
            if 0 ≤ cellValue c then cellValue c else -1⟩ : Record))
          (allStops.drop b.destStart) row0,
        st.totalRequests + 1, st.failedRequests, st.totalStopPairs + row0.length⟩ := by
  have hds : getDurationsFromSource (Response.durations (row0 :: rest)) = row0.map cellValue := by
    simp [getDurationsFromSource, rowDurations_map row0 hcells]
  have hne2 : row0.map cellValue ≠ [] := by simpa using hne
  have hw := writeDurations_eq allStops b.sourceIndex b.destStart src hsrc (row0.map cellValue)
    0 st (by simpa using hin)
  simp only [processBatch, hds, hne2, ne_eq, not_false_eq_true, if_true, hw, Option.map_some',
    Nat.add_zero, List.zipWith_map_right, List.length_map]

/-! ## The cache key -/

/-- C2: `makeKey` is symmetric in both programs, and the key the loader builds
for a record `(a, b, _)` is the key the query path builds for `lookup(b, a)`. -/
theorem makeKey_symmetric (a b : Str) :
    Redis.makeKey a b = Redis.makeKey b a ∧
    RedisQueryExample.makeKey a b = RedisQueryExample.makeKey b a ∧
    Redis.makeKey a b = RedisQueryExample.makeKey b a :=
  ⟨makeKey_swap a b, makeKey_swap a b, makeKey_swap a b⟩

/-- C3, as stated, fails: the non-empty identifiers `0::0`, `:0` and `0:` form
two different unordered pairs with the same key `0::0::0`. -/
theorem makeKey_collision :
    ascii "0::0" ≠ [] ∧ ascii ":0" ≠ [] ∧ ascii "0:" ≠ [] ∧
    ¬ ((ascii "0::0" = ascii "0::0" ∧ ascii ":0" = ascii "0:") ∨
       (ascii "0::0" = ascii "0:" ∧ ascii ":0" = ascii "0::0")) ∧
    Redis.makeKey (ascii "0::0") (ascii ":0") = Redis.makeKey (ascii "0::0") (ascii "0:") := by
  decide

/-- C3, amended: for non-empty identifiers `a`, `b`, `c`, where `a` holds no
separator `':'`, different unordered pairs `{a,b}` and `{a,c}` have different
keys. -/
theorem makeKey_shared_injective (a b c : Str) (_ha : a ≠ []) (_hb : b ≠ []) (_hc : c ≠ [])
    (hsep : sep ∉ a) (hne : ¬ ((a = a ∧ b = c) ∨ (a = c ∧ b = a))) :
    Redis.makeKey a b ≠ Redis.makeKey a c := by
  intro h
  exact hne (Or.inl ⟨rfl, makeKey_left_inj a b c hsep h⟩)

/-- The amended C3 at `a = A`, `b = B`, `c = C`. -/
theorem makeKey_shared_injective_witness :
    sep ∉ ascii "A" ∧
    ¬ ((ascii "A" = ascii "A" ∧ ascii "B" = ascii "C") ∨
       (ascii "A" = ascii "C" ∧ ascii "B" = ascii "A")) ∧
    Redis.makeKey (ascii "A") (ascii "B") ≠ Redis.makeKey (ascii "A") (ascii "C") :=
  ⟨by decide, by decide,
    makeKey_shared_injective (ascii "A") (ascii "B") (ascii "C") (by decide) (by decide)
      (by decide) (by decide) (by decide)⟩

/-- C10: for identifiers without the separator `':'`, two keys are equal if and
only if the unordered pairs are equal. -/
theorem makeKey_injective_on_pairs (a b c d : Str) (ha : sep ∉ a) (hb : sep ∉ b)
    (hc : sep ∉ c) (hd : sep ∉ d) :
    (Redis.makeKey a b = Redis.makeKey c d ↔ (a = c ∧ b = d) ∨ (a = d ∧ b = c)) ∧
    (RedisQueryExample.makeKey a b = RedisQueryExample.makeKey c d ↔
      (a = c ∧ b = d) ∨ (a = d ∧ b = c)) :=
  ⟨makeKey_eq_iff a b c d ha hb hc hd, makeKey_eq_iff a b c d ha hb hc hd⟩

/-- C10 at the identifiers of the query example, in both orders. -/
theorem makeKey_injective_on_pairs_witness :
    (sep ∉ ascii "BAR2" ∧ sep ∉ ascii "5697") ∧
    Redis.makeKey (ascii "BAR2") (ascii "5697") = Redis.makeKey (ascii "5697") (ascii "BAR2") :=
  ⟨by decide,
    ((makeKey_injective_on_pairs (ascii "BAR2") (ascii "5697") (ascii "5697") (ascii "BAR2")
      (by decide) (by decide) (by decide) (by decide)).1).mpr (Or.inr ⟨rfl, rfl⟩)⟩

/-! ## The pair cache -/

/-- C4: after the loader stores a record `(a, b, d)` with non-empty fields in
any store, the lookup with the arguments swapped finds `d`; the same holds
when the loader reads the record from its line `a,b,d`. -/
theorem load_then_lookup_swapped (store : Store) (count : Nat) (a b d : Str) (ha : a ≠ [])
    (hb : b ≠ []) (hd : d ≠ []) :
    RedisQueryExample.lookup (Redis.storeRecord ⟨store, count⟩ a b d).store b a = some d ∧
    (comma ∉ a → comma ∉ b → newline ∉ d →
      RedisQueryExample.lookup
        (Redis.processLine ⟨store, count⟩ (recordLine a b d)).store b a = some d) := by
  have h : RedisQueryExample.lookup (Redis.storeRecord ⟨store, count⟩ a b d).store b a
      = some d := by
    unfold RedisQueryExample.lookup GET
    rw [makeKey_query_eq, makeKey_swap b a]
    exact storeRecord_same ⟨store, count⟩ a b d ha hb hd
  refine ⟨h, fun hca hcb hnd => ?_⟩
  rw [processLine_recordLine ⟨store, count⟩ a b d hca hcb hnd hd]
  exact h

/-- C4 at the record `(BAR2, 5697, 431.2)` and the empty store. -/
theorem load_then_lookup_swapped_witness :
    (ascii "BAR2" ≠ [] ∧ ascii "5697" ≠ [] ∧ ascii "431.2" ≠ []) ∧
    RedisQueryExample.lookup
      (Redis.storeRecord ⟨fun _ => none, 0⟩ (ascii "BAR2") (ascii "5697") (ascii "431.2")).store
      (ascii "5697") (ascii "BAR2") = some (ascii "431.2") :=
  ⟨by decide,
    (load_then_lookup_swapped (fun _ => none) 0 (ascii "BAR2") (ascii "5697") (ascii "431.2")
      (by decide) (by decide) (by decide)).1⟩

/-- C5, as stated, fails: after the records `(0::0, :0, 1)` and `(0::0, 0:, 2)`,
which have different unordered pairs, the lookup of `(0::0, :0)` returns `2`
and not the value `1` of the last (and only) record of that pair. -/
theorem last_write_collision :
    ¬ ((ascii "0::0" = ascii "0::0" ∧ ascii "0:" = ascii ":0") ∨
       (ascii "0::0" = ascii ":0" ∧ ascii "0:" = ascii "0::0")) ∧
    RedisQueryExample.lookup
      (Redis.loadRecords ⟨fun _ => none, 0⟩
        [(ascii "0::0", ascii ":0", ascii "1"), (ascii "0::0", ascii "0:", ascii "2")]).store
      (ascii "0::0") (ascii ":0") = some (ascii "2") ∧
    some (ascii "2") ≠ some (ascii "1") := by
  decide

/-- C5, amended: when every record has non-empty fields and identifiers without
the separator `':'`, and `(a, b, d)` is the last record of the sequence whose
unordered pair is `{x, y}`, both `lookup(x, y)` and `lookup(y, x)` return `d`
after the load, whatever the initial store and the other records. -/
theorem last_write_wins (st : Redis.LoaderState) (pre post : List (Str × Str × Str))
    (a b d x y : Str)
    (hwf : ∀ r ∈ pre ++ [(a, b, d)] ++ post,
      r.1 ≠ [] ∧ r.2.1 ≠ [] ∧ r.2.2 ≠ [] ∧ sep ∉ r.1 ∧ sep ∉ r.2.1)
    (hpair : (a = x ∧ b = y) ∨ (a = y ∧ b = x))
    (hlast : ∀ r ∈ post, ¬ ((r.1 = x ∧ r.2.1 = y) ∨ (r.1 = y ∧ r.2.1 = x))) :
    RedisQueryExample.lookup (Redis.loadRecords st (pre ++ [(a, b, d)] ++ post)).store x y
      = some d ∧
    RedisQueryExample.lookup (Redis.loadRecords st (pre ++ [(a, b, d)] ++ post)).store y x
      = some d := by
  obtain ⟨ha, hb, hd, hsa, hsb⟩ := hwf (a, b, d) (by simp)
  have hkey : ∀ r ∈ post, Redis.makeKey r.1 r.2.1 ≠ Redis.makeKey a b := by
    intro r hr hk
    obtain ⟨_, _, _, hs1, hs2⟩ := hwf r (by simp [hr])
    have h := (makeKey_eq_iff r.1 r.2.1 a b hs1 hs2 hsa hsb).mp hk
    apply hlast r hr
    rcases hpair with ⟨h1, h2⟩ | ⟨h1, h2⟩ <;> rcases h with ⟨h3, h4⟩ | ⟨h3, h4⟩
    · exact Or.inl ⟨h3.trans h1, h4.trans h2⟩
    · exact Or.inr ⟨h3.trans h2, h4.trans h1⟩
    · exact Or.inr ⟨h3.trans h1, h4.trans h2⟩
    · exact Or.inl ⟨h3.trans h2, h4.trans h1⟩
  have hval : (Redis.loadRecords st (pre ++ [(a, b, d)] ++ post)).store (Redis.makeKey a b)
      = some d := by
    rw [loadRecords_append, loadRecords_append, loadRecords_other _ post _ hkey]
    exact storeRecord_same _ a b d ha hb hd
  have hxy : Redis.makeKey x y = Redis.makeKey a b := by
    rcases hpair with ⟨h1, h2⟩ | ⟨h1, h2⟩
    · rw [h1, h2]
    · rw [h1, h2, makeKey_swap]
  constructor
  · unfold RedisQueryExample.lookup GET
    rw [makeKey_query_eq, hxy]
    exact hval
  · unfold RedisQueryExample.lookup GET
    rw [makeKey_query_eq, makeKey_swap y x, hxy]
    exact hval

/-- The amended C5 on the records `(A, B, 1)`, `(B, A, 2)`, `(A, C, 3)`: both
lookups of the pair `{A, B}` return `2`. -/
theorem last_write_wins_witness :
    RedisQueryExample.lookup
      (Redis.loadRecords ⟨fun _ => none, 0⟩
        ([(ascii "A", ascii "B", ascii "1")] ++ [(ascii "B", ascii "A", ascii "2")] ++
          [(ascii "A", ascii "C", ascii "3")])).store (ascii "A") (ascii "B")
      = some (ascii "2") ∧
    RedisQueryExample.lookup
      (Redis.loadRecords ⟨fun _ => none, 0⟩
        ([(ascii "A", ascii "B", ascii "1")] ++ [(ascii "B", ascii "A", ascii "2")] ++
          [(ascii "A", ascii "C", ascii "3")])).store (ascii "B") (ascii "A")
      = some (ascii "2") :=
  last_write_wins ⟨fun _ => none, 0⟩ [(ascii "A", ascii "B", ascii "1")]
    [(ascii "A", ascii "C", ascii "3")] (ascii "B") (ascii "A") (ascii "2") (ascii "A")
    (ascii "B") (by decide) (by decide) (by decide)

/-! ## The output name -/

/-- C8: for every finite set `E` of existing names the probing loop ends (any
fuel above the size of `E` is enough), and the name it chooses is the first
name of the sequence `foot_durations.csv`, `foot_durations_2.csv`,
`foot_durations_3.csv`, ... that is not in `E`; so the chosen name is never in
`E`. -/
theorem chooseFilename_first_free (E : Finset Str) :
    ∃ k, candidateName k ∉ E ∧ (∀ j, j < k → candidateName j ∈ E) ∧
      ∀ fuel, E.card < fuel → chooseFilename E fuel = some (candidateName k) := by
  classical
  have hex := exists_free_name E
  refine ⟨Nat.find hex, Nat.find_spec hex, fun j hj => ?_, fun fuel hfuel => ?_⟩
  · exact not_not.mp (Nat.find_min hex hj)
  · have hle : Nat.find hex ≤ E.card := by
      by_contra hgt
      have hall : ∀ j ∈ Finset.range (E.card + 1), candidateName j ∈ E := by
        intro j hj
        have hj1 : j < Nat.find hex := by
          have := Finset.mem_range.mp hj
          omega
        exact not_not.mp (Nat.find_min hex hj1)
      have h := Finset.card_le_card_of_injOn candidateName hall
        (fun a _ b _ hab => candidateName_injective hab)
      simp at h
    have hstart : baseFilename ++ extension = candidateName 0 := by decide
    unfold chooseFilename
    rw [hstart]
    exact probeLoop_finds E (Nat.find hex) (Nat.find_spec hex)
      (fun j hj => not_not.mp (Nat.find_min hex hj)) (Nat.find hex) 0 fuel (by omega) (by omega)

/-- C8 with the existing names `foot_durations.csv` and `foot_durations_2.csv`:
the chosen name is `foot_durations_3.csv`, and it is not an existing name. -/
theorem chooseFilename_first_free_witness :
    chooseFilename {ascii "foot_durations.csv", ascii "foot_durations_2.csv"} 3
      = some (ascii "foot_durations_3.csv") ∧
    ascii "foot_durations_3.csv" ∉
      ({ascii "foot_durations.csv", ascii "foot_durations_2.csv"} : Finset Str) := by
  obtain ⟨k, hk, _, hfuel⟩ :=
    chooseFilename_first_free {ascii "foot_durations.csv", ascii "foot_durations_2.csv"}
  have hrun : chooseFilename {ascii "foot_durations.csv", ascii "foot_durations_2.csv"} 3
      = some (ascii "foot_durations_3.csv") := by decide
  have hname : candidateName k = ascii "foot_durations_3.csv" :=
    Option.some.inj ((hfuel 3 (by decide)).symm.trans hrun)
  rw [hname] at hk
  exact ⟨hrun, hk⟩

/-! ## The batch plan -/

/-- C1: for every `totalStops` and every `maxDestinations >= 1` the nested loop
ends (any fuel above `totalStops` is enough), and every pair `(i, j)` lies in
exactly one emitted batch when `i < j < totalStops` and in none otherwise, a
pair lying in a batch when `sourceIndex = i` and `destStart <= j <= destEnd`.
The plan is empty when `totalStops <= 1`, and for 3 stops and a limit of 99
the batches are `(0,1,2)` and `(1,2,2)`. -/
theorem batches_cover_pairs_once (totalStops maxDestinations : Nat)
    (hmax : 1 ≤ maxDestinations) :
    (∃ bs, (∀ fuel, totalStops < fuel →
        planBatches totalStops maxDestinations fuel = some bs) ∧
      (∀ i j, bs.countP (fun b => b.sourceIndex = i ∧ b.destStart ≤ j ∧ j ≤ b.destEnd)
        = if i < j ∧ j < totalStops then 1 else 0) ∧
      (totalStops ≤ 1 → bs = [])) ∧
    planBatches 3 MAX_DESTINATIONS 4 = some [⟨0, 1, 2⟩, ⟨1, 2, 2⟩] := by
  refine ⟨?_, by decide⟩
  obtain ⟨bs, hbs, hrun⟩ := planBatches_planned totalStops maxDestinations hmax
  have hcount := planned_count hmax hbs
  refine ⟨bs, hrun, fun i j => ?_, fun h1 => ?_⟩
  · rw [hcount i j]
    simp
  · cases bs with
    | nil => rfl
    | cons b bs =>
      have := planned_mem hmax hbs b (List.mem_cons_self _ _)
      omega

/-- C1 for 5 stops and a limit of 2: the six batches of the plan cover each
pair `i < j < 5` once and no other pair. -/
theorem batches_cover_pairs_once_witness :
    1 ≤ 2 ∧
    planBatches 5 2 6
      = some [⟨0, 1, 2⟩, ⟨0, 3, 4⟩, ⟨1, 2, 3⟩, ⟨1, 4, 4⟩, ⟨2, 3, 4⟩, ⟨3, 4, 4⟩] ∧
    ∀ i j, ([⟨0, 1, 2⟩, ⟨0, 3, 4⟩, ⟨1, 2, 3⟩, ⟨1, 4, 4⟩, ⟨2, 3, 4⟩, ⟨3, 4, 4⟩] :
        List Batch).countP (fun b => b.sourceIndex = i ∧ b.destStart ≤ j ∧ j ≤ b.destEnd)
      = if i < j ∧ j < 5 then 1 else 0 := by
  obtain ⟨⟨bs, hrun, hcount, _⟩, _⟩ := batches_cover_pairs_once 5 2 (by decide)
  have hplan : planBatches 5 2 6
      = some [⟨0, 1, 2⟩, ⟨0, 3, 4⟩, ⟨1, 2, 3⟩, ⟨1, 4, 4⟩, ⟨2, 3, 4⟩, ⟨3, 4, 4⟩] := by decide
  have hbs : bs = [⟨0, 1, 2⟩, ⟨0, 3, 4⟩, ⟨1, 2, 3⟩, ⟨1, 4, 4⟩, ⟨2, 3, 4⟩, ⟨3, 4, 4⟩] :=
    Option.some.inj ((hrun 6 (by decide)).symm.trans hplan)
  rw [hbs] at hcount
  exact ⟨by decide, hplan, hcount⟩

/-- C9: for every `totalStops` and every `maxDestinations >= 1`, every emitted
batch has `sourceIndex < destStart <= destEnd < totalStops`, at most
`maxDestinations` destinations, and a source other than `totalStops - 1`; the
batches of one source, in the order emitted, start at `sourceIndex + 1`, each
next one starts right after the previous `destEnd`, each one that has a
successor holds exactly `maxDestinations` destinations, the last one ends at
`totalStops - 1`, and there is at least one when `sourceIndex + 1 < totalStops`. -/
theorem batch_shape (totalStops maxDestinations : Nat) (hmax : 1 ≤ maxDestinations) :
    ∃ bs, (∀ fuel, totalStops < fuel →
        planBatches totalStops maxDestinations fuel = some bs) ∧
      (∀ b ∈ bs, b.sourceIndex < b.destStart ∧ b.destStart ≤ b.destEnd ∧
        b.destEnd < totalStops ∧ b.destEnd - b.destStart + 1 ≤ maxDestinations ∧
        b.sourceIndex ≠ totalStops - 1) ∧
      (∀ s,
        (∀ b ∈ (bs.filter (fun b => b.sourceIndex = s)).head?, b.destStart = s + 1) ∧
        List.Chain' (fun b c : Batch => c.destStart = b.destEnd + 1 ∧
          b.destEnd - b.destStart + 1 = maxDestinations)
          (bs.filter (fun b => b.sourceIndex = s)) ∧
        (∀ b ∈ (bs.filter (fun b => b.sourceIndex = s)).getLast?,
          b.destEnd = totalStops - 1) ∧
        (s + 1 < totalStops → bs.filter (fun b => b.sourceIndex = s) ≠ [])) := by
  obtain ⟨bs, hbs, hrun⟩ := planBatches_planned totalStops maxDestinations hmax
  refine ⟨bs, hrun, fun b hb => ?_, fun s => ?_⟩
  · obtain ⟨h1, h2, h3, h4⟩ := planned_mem hmax hbs b hb
    exact ⟨h1, h2, h3, h4, by omega⟩
  · obtain ⟨hin, hout⟩ := planned_filter hmax hbs s
    by_cases hs : 0 ≤ s ∧ s < totalStops
    · obtain ⟨h1, h2, h3⟩ := tiling_chain hmax (hin hs)
      exact ⟨h1, h2, h3, fun hlt => (tiling_nonempty (hin hs)).mpr hlt⟩
    · rw [hout hs]
      refine ⟨by simp, by simp, by simp, fun hlt => ?_⟩
      omega

/-- C9 for 5 stops and a limit of 2: each of the six batches has the stated
shape. -/
theorem batch_shape_witness :
    1 ≤ 2 ∧
    ∀ b ∈ ([⟨0, 1, 2⟩, ⟨0, 3, 4⟩, ⟨1, 2, 3⟩, ⟨1, 4, 4⟩, ⟨2, 3, 4⟩, ⟨3, 4, 4⟩] : List Batch),
      b.sourceIndex < b.destStart ∧ b.destStart ≤ b.destEnd ∧ b.destEnd < 5 ∧
      b.destEnd - b.destStart + 1 ≤ 2 ∧ b.sourceIndex ≠ 5 - 1 := by
  obtain ⟨bs, hrun, hshape, _⟩ := batch_shape 5 2 (by decide)
  have hplan : planBatches 5 2 6
      = some [⟨0, 1, 2⟩, ⟨0, 3, 4⟩, ⟨1, 2, 3⟩, ⟨1, 4, 4⟩, ⟨2, 3, 4⟩, ⟨3, 4, 4⟩] := by decide
  have hbs : bs = [⟨0, 1, 2⟩, ⟨0, 3, 4⟩, ⟨1, 2, 3⟩, ⟨1, 4, 4⟩, ⟨2, 3, 4⟩, ⟨3, 4, 4⟩] :=
    Option.some.inj ((hrun 6 (by decide)).symm.trans hplan)
  rw [hbs] at hshape
  exact ⟨by decide, hshape⟩

/-! ## One batch and its response -/

/-- C6: for a batch within the stops and a response whose row 0 has exactly
`destEnd - destStart + 1` cells, each `null` or a non-negative number, the
pipeline counts one successful request and appends one record per cell, in
order: the record of cell `i` is `(stops[source].id, stops[destStart+i].id, v)`
with `v = -1` for `null` and the number of the cell otherwise.  Replacing cell
`i` by `null` changes the record at position `i` only, whose value becomes
`-1`. -/
theorem positional_alignment (allStops : List Stop) (sourceIndex destStart destEnd : Nat)
    (row0 : List Cell) (rest : List (List Cell)) (st : RunState)
    (hsrc : sourceIndex < allStops.length) (hle : destStart ≤ destEnd)
    (hend : destEnd < allStops.length) (hlen : row0.length = destEnd - destStart + 1)
    (hcells : ∀ c ∈ row0, c = Cell.null ∨ ∃ v, 0 ≤ v ∧ c = Cell.number v) :
    ∃ recs : List Record,
      processBatch allStops ⟨sourceIndex, destStart, destEnd⟩
          (Response.durations (row0 :: rest)) st
        = some ⟨st.outFile ++ recs, st.totalRequests + 1, st.failedRequests,
            st.totalStopPairs + row0.length⟩ ∧
      recs.length = row0.length ∧
      (∀ i, i < row0.length → ∃ src dst,
        allStops[sourceIndex]? = some src ∧ allStops[destStart + i]? = some dst ∧
        ((row0[i]? = some Cell.null ∧ recs[i]? = some ⟨src.stop_id, dst.stop_id, -1⟩) ∨
         (∃ v, row0[i]? = some (Cell.number v) ∧
            recs[i]? = some ⟨src.stop_id, dst.stop_id, v⟩))) ∧
      (∀ i, i < row0.length → ∃ recs1 : List Record,
        processBatch allStops ⟨sourceIndex, destStart, destEnd⟩
            (Response.durations (row0.set i Cell.null :: rest)) st
          = some ⟨st.outFile ++ recs1, st.totalRequests + 1, st.failedRequests,
              st.totalStopPairs + row0.length⟩ ∧
        recs1.length = recs.length ∧
        (∀ j, j ≠ i → recs1[j]? = recs[j]?) ∧
        (recs1[i]?).map (fun r => r.duration) = some (-1)) := by
  have hs : allStops[sourceIndex]? = some allStops[sourceIndex] := List.getElem?_eq_getElem hsrc
  have hne : row0 ≠ [] := by
    intro h0
    simp [h0] at hlen
  have hother : ∀ c ∈ row0, c ≠ Cell.other := by
    intro c hc h0
    rcases hcells c hc with h | ⟨v, _, h⟩ <;> rw [h0] at h <;> exact absurd h (by simp)
  have hin : destStart + row0.length ≤ allStops.length := by omega
  have hdrop : (allStops.drop destStart).length = allStops.length - destStart := by simp
  refine ⟨_, processBatch_row allStops ⟨sourceIndex, destStart, destEnd⟩ row0 rest st _ hs hne
    hother hin, ?_, ?_, ?_⟩
  · simp only [List.length_zipWith, hdrop]
    omega
  · intro i hi
    have hdi : destStart + i < allStops.length := by omega
    have hd : allStops[destStart + i]? = some allStops[destStart + i] :=
      List.getElem?_eq_getElem hdi
    have hc : row0[i]? = some row0[i] := List.getElem?_eq_getElem hi
    refine ⟨_, _, hs, hd, ?_⟩
    rcases hcells row0[i] (List.getElem_mem _) with h | ⟨v, hv, h⟩
    · left
      refine ⟨by rw [hc, h], ?_⟩
      simp [List.getElem?_zipWith, List.getElem?_drop, hd, hc, h, cellValue]
    · right
      refine ⟨v, by rw [hc, h], ?_⟩
      simp [List.getElem?_zipWith, List.getElem?_drop, hd, hc, h, cellValue, hv]
  · intro i hi
    have hne1 : row0.set i Cell.null ≠ [] := by
      intro h0
      have := congrArg List.length h0
      simp at this
      exact hne this
    have hother1 : ∀ c ∈ row0.set i Cell.null, c ≠ Cell.other := by
      intro c hc
      rcases List.mem_or_eq_of_mem_set hc with h | h
      · exact hother c h
      · rw [h]
        simp
    have hrun := processBatch_row allStops ⟨sourceIndex, destStart, destEnd⟩
      (row0.set i Cell.null) rest st _ hs hne1 hother1 (by simpa using hin)
    simp only [List.length_set] at hrun
    refine ⟨_, hrun, ?_, ?_, ?_⟩
    · simp [List.length_zipWith]
    · intro j hj
      simp [List.getElem?_zipWith, List.getElem?_set_ne (Ne.symm hj)]
    · have hdi : destStart + i < allStops.length := by omega
      have hd : allStops[destStart + i]? = some allStops[destStart + i] :=
        List.getElem?_eq_getElem hdi
      simp [List.getElem?_zipWith, List.getElem?_drop, hd, List.getElem?_set_self, hi, cellValue]

/-- C6 on the scenario: batch `(0,1,2)` over the stops `A`, `B`, `C` with
`durations: [[12.5, null]]` writes `(A,B,12.5)` and `(A,C,-1)`. -/
theorem positional_alignment_witness :
    (∀ c ∈ [Cell.number (12.5), Cell.null], c = Cell.null ∨ ∃ v, 0 ≤ v ∧ c = Cell.number v) ∧
    processBatch exampleStops ⟨0, 1, 2⟩ (Response.durations [[Cell.number (12.5), Cell.null]])
        initialRun
      = some ⟨[⟨ascii "A", ascii "B", 12.5⟩, ⟨ascii "A", ascii "C", -1⟩], 1, 0, 2⟩ := by
  have hcells : ∀ c ∈ [Cell.number (12.5), Cell.null],
      c = Cell.null ∨ ∃ v, 0 ≤ v ∧ c = Cell.number v := by
    intro c hc
    simp only [List.mem_cons, List.mem_singleton, List.not_mem_nil, or_false] at hc
    rcases hc with rfl | rfl
    · exact Or.inr ⟨12.5, by norm_num, rfl⟩
    · exact Or.inl rfl
  obtain ⟨recs, hrun, hlen, hpos, _⟩ := positional_alignment exampleStops 0 1 2
    [Cell.number (12.5), Cell.null] [] initialRun (by decide) (by decide) (by decide)
    (by decide) hcells
  refine ⟨hcells, ?_⟩
  rw [hrun]
  obtain ⟨s0, d0, hs0, hd0, h0⟩ := hpos 0 (by decide)
  obtain ⟨s1, d1, hs1, hd1, h1⟩ := hpos 1 (by decide)
  simp [exampleStops] at hs0 hd0 hs1 hd1
  subst hs0 hd0 hs1 hd1
  simp at h0 h1
  match recs, hlen, h0, h1 with
  | [r0, r1], _, h0, h1 =>
    simp at h0 h1
    simp [initialRun, h0, h1]

/-- C7, as stated, fails: for the batch `(0,1,2)` a response with two rows, and
a response whose only row has one cell instead of two, are both counted as
successful requests and contribute records. -/
theorem malformed_accepted :
    ([[Cell.number (12.5), Cell.null], [Cell.number 1, Cell.number 2]] : List (List Cell)).length ≠ 1 ∧
    processBatch exampleStops ⟨0, 1, 2⟩
        (Response.durations [[Cell.number (12.5), Cell.null], [Cell.number 1, Cell.number 2]])
        initialRun
      = some ⟨[⟨ascii "A", ascii "B", 12.5⟩, ⟨ascii "A", ascii "C", -1⟩], 1, 0, 2⟩ ∧
    ([Cell.number (12.5)] : List Cell).length ≠ 2 - 1 + 1 ∧
    processBatch exampleStops ⟨0, 1, 2⟩ (Response.durations [[Cell.number (12.5)]]) initialRun
      = some ⟨[⟨ascii "A", ascii "B", 12.5⟩], 1, 0, 1⟩ := by
  refine ⟨by decide, ?_, by decide, ?_⟩
  · simp [processBatch, getDurationsFromSource, rowDurations, writeDurations, initialRun,
      exampleStops]
    intro h
    exact absurd h (by norm_num)
  · simp [processBatch, getDurationsFromSource, rowDurations, writeDurations, initialRun,
      exampleStops]
    intro h
    exact absurd h (by norm_num)

/-- C7, amended: a transport failure, a parse failure, a missing `durations`
member, a `durations` matrix without rows and a row 0 without cells are
failures: no record is written and the request is counted as failed, not as
successful.  Row and column counts are not checked beyond that: for a batch
within the stops, a response whose row 0 has `k` cells, each `null` or a
number, `1 <= k <= destEnd - destStart + 1`, is a successful request that
writes exactly `k` records, whatever rows follow row 0. -/
theorem payload_check (allStops : List Stop) (b : Batch) (st : RunState) :
    (∀ response, response = Response.transportFailure ∨ response = Response.parseError ∨
        response = Response.noDurations ∨ response = Response.durations [] ∨
        (∃ rest, response = Response.durations ([] :: rest)) →
      processBatch allStops b response st
        = some ⟨st.outFile, st.totalRequests, st.failedRequests + 1, st.totalStopPairs⟩) ∧
    (∀ row0 rest, row0 ≠ [] → row0.length ≤ b.destEnd - b.destStart + 1 →
      (∀ c ∈ row0, c ≠ Cell.other) → b.sourceIndex < allStops.length →
      b.destStart ≤ b.destEnd → b.destEnd < allStops.length →
      ∃ recs : List Record,
        processBatch allStops b (Response.durations (row0 :: rest)) st
          = some ⟨st.outFile ++ recs, st.totalRequests + 1, st.failedRequests,
              st.totalStopPairs + row0.length⟩ ∧
        recs.length = row0.length) := by
  constructor
  · rintro response (rfl | rfl | rfl | rfl | ⟨rest, rfl⟩) <;>
      simp [processBatch, getDurationsFromSource, rowDurations]
  · intro row0 rest hne hlen hcells hsrc hle hend
    have hs : allStops[b.sourceIndex]? = some allStops[b.sourceIndex] :=
      List.getElem?_eq_getElem hsrc
    refine ⟨_, processBatch_row allStops b row0 rest st _ hs hne hcells (by omega), ?_⟩
    simp only [List.length_zipWith, List.length_drop]
    omega

/-- The amended C7 for the batch `(0,1,2)`: an empty row 0 is a failure, a row
0 of one cell followed by a second row is a success with one record. -/
theorem payload_check_witness :
    processBatch exampleStops ⟨0, 1, 2⟩ (Response.durations [[], [Cell.null]]) initialRun
      = some ⟨[], 0, 1, 0⟩ ∧
    ∃ recs : List Record,
      processBatch exampleStops ⟨0, 1, 2⟩
          (Response.durations [[Cell.number 12.5], [Cell.null]]) initialRun
        = some ⟨[] ++ recs, 0 + 1, 0, 0 + 1⟩ ∧ recs.length = 1 :=
  ⟨(payload_check exampleStops ⟨0, 1, 2⟩ initialRun).1 _
      (Or.inr (Or.inr (Or.inr (Or.inr ⟨_, rfl⟩)))),
    (payload_check exampleStops ⟨0, 1, 2⟩ initialRun).2 [Cell.number 12.5] [[Cell.null]]
      (by simp) (by decide) (by simp) (by decide) (by decide) (by decide)⟩

end CapstoneProject
